import Mathlib

/-!
Verification of the Fluentify-AI client core (src/unnamed/part_000 and
src/services/geminiService.ts) against its natural-language specification.

The TypeScript source is shallowly embedded below.  JavaScript strings are
modelled as Lean `String`/`List Char` (the inputs of interest are ASCII);
JavaScript numbers occurring in the library records are modelled as `Int`
(all values the code stores there are integers); `undefined`/optional
fields are modelled as `Option`.  `Math.round(x)` on the non-negative
rationals produced by the writing check is embedded as exact
round-half-up arithmetic on `Nat`.
-/

namespace Fluentify

/-! ## Text normalization (normalizeText, part_000 lines 222-228) -/

/-- ASCII case folding, embedding `String.prototype.toLowerCase` on the
ASCII range (the only range the specified behaviour exercises). -/
def toLowerChar (c : Char) : Char :=
  if 65 ≤ c.toNat ∧ c.toNat ≤ 90 then Char.ofNat (c.toNat + 32) else c

/-- The punctuation set stripped by normalizeText's first `replace`:
the regex character class `[.,/#!$%^&*;:{}=\-_`~()]` (codepoints 94, 123,
125 and 96 written numerically). -/
def punctChars : List Char :=
  ['.', ',', '/', '#', '!', '$', '%', Char.ofNat 94, '&', '*', ';', ':',
   Char.ofNat 123, Char.ofNat 125, '=', '-', '_', Char.ofNat 96, '~', '(', ')']

def isPunct (c : Char) : Bool := punctChars.contains c

/-- Whitespace as matched by the regex `\s` (ASCII part: space, tab,
line feed, vertical tab, form feed, carriage return). -/
def isWs (c : Char) : Bool :=
  c = ' ' || c = '\t' || c = '\n' || c = '\r' || c.toNat = 11 || c.toNat = 12

/-- One pass of `replace(/\s+/g, " ")`: every maximal run of whitespace
becomes a single space.  The boolean records whether the previous
character was part of a whitespace run. -/
def collapseWsAux : Bool → List Char → List Char
  | _, [] => []
  | prevWs, c :: rest =>
    if isWs c then
      if prevWs then collapseWsAux true rest else ' ' :: collapseWsAux true rest
    else c :: collapseWsAux false rest

def collapseWs (l : List Char) : List Char := collapseWsAux false l

/-- `String.prototype.trim` on a character list. -/
def trimChars (l : List Char) : List Char :=
  ((l.dropWhile isWs).reverse.dropWhile isWs).reverse

/-- `trim` at the string level (used by handleSavePhrase for
`targetText.trim()` / `phraseNote.trim()`). -/
def jsTrim (s : String) : String := (trimChars s.toList).asString

/-- normalizeText (part_000 lines 222-228): lowercase, strip the
punctuation class, collapse whitespace runs to single spaces, trim. -/
def normalizeText (text : String) : String :=
  (trimChars (collapseWs ((text.toList.map toLowerChar).filter
    (fun c => !(isPunct c))))).asString

/-! ## Word splitting (`split(' ')`) -/

/-- Accumulator-based embedding of `String.prototype.split(' ')`:
substrings between single-space separators; the empty string splits to
`[""]`. -/
def splitAux : List Char → List Char → List String
  | [], acc => [acc.reverse.asString]
  | c :: rest, acc =>
    if c = ' ' then acc.reverse.asString :: splitAux rest []
    else splitAux rest (c :: acc)

def splitOnSpace (s : String) : List String := splitAux s.toList []

/-! ## The writing check (checkWriting, part_000 lines 251-265) -/

structure DiffEntry where
  word : String
  isCorrect : Bool
deriving Repr, DecidableEq

structure WritingResult where
  score : Nat
  diff : List DiffEntry
deriving Repr, DecidableEq

/-- JavaScript `a[idx] || w`: the indexed word unless it is missing or
the empty string (both falsy), in which case the fallback is used. -/
def jsOrWord (o : Option String) (w : String) : String :=
  match o with
  | some s => if s = "" then w else s
  | none => w

/-- Exact round-half-up embedding of `Math.round((c / n) * 100)`:
for `n > 0`, `(200 * c + n) / (2 * n)` in natural division equals
`⌊100 * c / n + 1 / 2⌋`. -/
def roundPct (c n : Nat) : Nat := (c * 200 + n) / (2 * n)

/-- checkWriting (part_000 lines 251-265), as a function of the current
phrase text and the user input.  `correctCount` is accumulated in the
source inside the `map` callback; counting the correct entries of the
produced diff is the same number. -/
def checkWriting (text userInput : String) : WritingResult :=
  let targetWords := splitOnSpace (normalizeText text)
  let userWords := splitOnSpace (normalizeText userInput)
  let origWords := splitOnSpace text
  let diff := targetWords.enum.map (fun p =>
    { word := jsOrWord origWords[p.1]? p.2,
      isCorrect := userWords[p.1]? == some p.2 : DiffEntry })
  let correctCount := (diff.filter (fun e => e.isCorrect)).length
  { score := roundPct correctCount targetWords.length, diff := diff }

/-! ## The phrase library (types.ts SavedPhrase, part_000 operations) -/

/-- SavedPhrase (types.ts).  The optional numeric fields `lastScore` and
`practiceCount` are modelled as `Option Int`. -/
structure SavedPhrase where
  id : String
  text : String
  note : String
  timestamp : Int
  lastScore : Option Int := none
  practiceCount : Option Int := none
deriving Repr, DecidableEq

/-- updatePhraseScore (part_000 lines 94-104).  JavaScript
`(p.practiceCount || 0)` coincides with `getD 0` on integers, since the
only falsy integer is 0 itself. -/
def updatePhraseScore (pid : String) (score : Int)
    (savedPhrases : List SavedPhrase) : List SavedPhrase :=
  savedPhrases.map (fun p =>
    if p.id = pid then
      { p with lastScore := some score,
               practiceCount := some (p.practiceCount.getD 0 + 1) }
    else p)

/-- handleSavePhrase (part_000 lines 189-204).  `crypto.randomUUID()` and
`Date.now()` are environment inputs, passed as the `freshId` and `now`
parameters; the guard `if (!targetText.trim()) return` fires exactly when
the trimmed text is the empty string. -/
def handleSavePhrase (freshId : String) (now : Int)
    (targetText phraseNote : String)
    (savedPhrases : List SavedPhrase) : List SavedPhrase :=
  if jsTrim targetText = "" then savedPhrases
  else
    { id := freshId, text := jsTrim targetText, note := jsTrim phraseNote,
      timestamp := now, practiceCount := some 0, lastScore := none } :: savedPhrases

/-! ## Exercise mode (types.ts ExerciseState, startExerciseMode lines 230-249) -/

inductive ExerciseStep where
  | WRITING
  | SPEAKING
  | RESULT
  | FINISHED
deriving Repr, DecidableEq

structure ExerciseState where
  currentPhraseIndex : Nat
  shuffledPhrases : List SavedPhrase
  step : ExerciseStep
  userInput : String
  writingResult : Option WritingResult := none
deriving Repr, DecidableEq

/-- The sort key of startExerciseMode's comparator:
`p.lastScore ?? -1`. -/
def scoreKey (p : SavedPhrase) : Int := p.lastScore.getD (-1)

/-- The comparator passed to `Array.prototype.sort`: for distinct keys it
returns `scoreA - scoreB` (negative exactly when `scoreA < scoreB`); for
equal keys it returns `Math.random() - 0.5`, modelled by the `coin`
oracle (each pair is compared at most once by the sort below, so an
oracle indexed by the pair captures the per-call randomness). -/
def exerciseCmp (coin : SavedPhrase → SavedPhrase → Bool)
    (a b : SavedPhrase) : Bool :=
  if scoreKey a = scoreKey b then coin a b else decide (scoreKey a < scoreKey b)

/-- Insertion of one element into an already-sorted prefix, `cmp x y =
true` meaning the comparator orders `x` before `y`. -/
def insertSorted (cmp : SavedPhrase → SavedPhrase → Bool)
    (x : SavedPhrase) : List SavedPhrase → List SavedPhrase
  | [] => [x]
  | y :: ys => if cmp x y then x :: y :: ys else y :: insertSorted cmp x ys

/-- `Array.prototype.sort` modelled as a stable comparison sort
(insertion sort).  For a consistent comparator this agrees with the
engine; for the inconsistent random-tie comparator the ECMAScript result
is implementation-defined, and the oracle quantifies over the
comparator's tie decisions. -/
def sortBy (cmp : SavedPhrase → SavedPhrase → Bool) :
    List SavedPhrase → List SavedPhrase
  | [] => []
  | x :: xs => insertSorted cmp x (sortBy cmp xs)

/-- startExerciseMode (part_000 lines 230-249): no-op (`none`) on an
empty library, otherwise the sorted snapshot with index 0, step WRITING
and empty input. -/
def startExerciseMode (coin : SavedPhrase → SavedPhrase → Bool)
    (savedPhrases : List SavedPhrase) : Option ExerciseState :=
  if savedPhrases.isEmpty then none
  else some
    { currentPhraseIndex := 0,
      shuffledPhrases := sortBy (exerciseCmp coin) savedPhrases,
      step := ExerciseStep.WRITING,
      userInput := "" }

/-! ## Import merge (handleImport, part_000 lines 297-318) -/

/-- One `Map.prototype.set` step on an association list ordered by
insertion: an existing key keeps its position but its value is
overwritten; a new key is appended. -/
def mapSet (m : List (String × SavedPhrase)) (k : String) (v : SavedPhrase) :
    List (String × SavedPhrase) :=
  if m.any (fun e => e.1 == k) then
    m.map (fun e => if e.1 == k then (e.1, v) else e)
  else m ++ [(k, v)]

/-- `new Map(items.map(item => [item.text, item]))`: the entries are
inserted left to right. -/
def buildTextMap (items : List SavedPhrase) : List (String × SavedPhrase) :=
  items.foldl (fun m it => mapSet m it.text it) []

/-- handleImport's merge (part_000 lines 297-318), for a response that
parsed to an array and was confirmed: `merged = [...json, ...saved]`,
then `Array.from(new Map(merged.map(item => [item.text, item])).values())`. -/
def handleImport (json savedPhrases : List SavedPhrase) : List SavedPhrase :=
  (buildTextMap (json ++ savedPhrases)).map (fun e => e.2)

/-! ## The practice-session state machine (part_000 lines 48-64, 106-122,
171-187, 336) and the analyzeSpeech response handling
(geminiService.ts lines 7-68) -/

inductive AppStatus where
  | IDLE
  | RECORDING
  | ANALYZING
  | RESULT
  | ERROR
  | EXERCISE
deriving Repr, DecidableEq

/-- A parsed JSON value, as produced by a successful `JSON.parse` of the
analysis response text.  Numeric leaves are modelled as `Int` (the
scores in play are integers). -/
inductive JsValue where
  | jnull
  | jbool (b : Bool)
  | jnum (n : Int)
  | jstr (s : String)
  | jarr (elems : List JsValue)
  | jobj (fields : List (String × JsValue))

/-- The session fields of the App component state that the recording /
analysis lifecycle reads and writes.  `result` holds the raw value
`analyzeSpeech` returned (the source stores `JSON.parse(...)` cast to
`AnalysisResult` with no runtime check, so any JSON value can end up
here).  The success path's library write-back (`updatePhraseScore` when
an exercise is active) touches only the phrase list and is modelled by
`updatePhraseScore` above. -/
structure AppState where
  targetText : String
  status : AppStatus
  result : Option JsValue
  errorMessage : String

/-- The outcome of `await analyzeSpeech(...)` as observed by
handleProcessing: `failure` is any thrown error (network failure, quota,
or `JSON.parse` throwing on non-JSON response text); `success v` is the
parsed value, returned by analyzeSpeech with a type cast and no shape
validation.  An empty or missing response text parses as `'{}'`
(`response.text || '{}'`), i.e. `success (jobj [])`. -/
inductive AnalysisOutcome where
  | failure
  | success (v : JsValue)

/-- startRecording (part_000 lines 106-122), the branch where the
microphone was acquired: status RECORDING, result and error cleared. -/
def startRecordingSuccess (s : AppState) : AppState :=
  { s with status := AppStatus.RECORDING, result := none, errorMessage := "" }

/-- startRecording's catch branch: device access failed. -/
def startRecordingFailure (s : AppState) : AppState :=
  { s with errorMessage := "Không thể truy cập microphone.",
           status := AppStatus.ERROR }

/-- handleProcessing's first statement (part_000 line 172). -/
def handleProcessingStart (s : AppState) : AppState :=
  { s with status := AppStatus.ANALYZING }

/-- The remainder of handleProcessing (part_000 lines 173-186): on
success the returned value is stored and status becomes RESULT; the
catch branch records the analysis-failure message and status ERROR. -/
def handleProcessingOutcome (s : AppState) : AnalysisOutcome → AppState
  | AnalysisOutcome.failure =>
    { s with errorMessage := "Phân tích AI thất bại.",
             status := AppStatus.ERROR }
  | AnalysisOutcome.success v =>
    { s with result := some v, status := AppStatus.RESULT }

def handleProcessing (s : AppState) (o : AnalysisOutcome) : AppState :=
  handleProcessingOutcome (handleProcessingStart s) o

/-- The reset performed by the header's onGoHome handler (part_000 line
336): status IDLE, exercise discarded, result cleared; the target text
is left alone. -/
def goHome (s : AppState) : AppState :=
  { s with status := AppStatus.IDLE, result := none }

/-- Field lookup on a parsed JSON object. -/
def jsLookup (fields : List (String × JsValue)) (k : String) : Option JsValue :=
  (fields.find? (fun e => e.1 == k)).map (fun e => e.2)

def isNumV : Option JsValue → Bool
  | some (JsValue.jnum _) => true
  | _ => false

def isStrV : Option JsValue → Bool
  | some (JsValue.jstr _) => true
  | _ => false

def isBoolV : Option JsValue → Bool
  | some (JsValue.jbool _) => true
  | _ => false

def isStrArrV : Option JsValue → Bool
  | some (JsValue.jarr xs) =>
    xs.all (fun x => match x with | JsValue.jstr _ => true | _ => false)
  | _ => false

/-- Modelled from the spec: the AnalysisResult shape of spec section 3
(accuracyScore: number, transcription: string, mispronouncedWords:
string array, feedback: string, tips: string, isPerfect: boolean).  The
source has no runtime counterpart of this check; it exists here only to
state what "satisfies the AnalysisResult shape" means. -/
def specAnalysisResultShape (v : JsValue) : Bool :=
  match v with
  | JsValue.jobj fs =>
    isNumV (jsLookup fs "accuracyScore") &&
    isStrV (jsLookup fs "transcription") &&
    isStrArrV (jsLookup fs "mispronouncedWords") &&
    isStrV (jsLookup fs "feedback") &&
    isStrV (jsLookup fs "tips") &&
    isBoolV (jsLookup fs "isPerfect")
  | _ => false

/-! ## Helper lemmas -/

theorem filter_length_eq_length_iff (p : α → Bool) (l : List α) :
    (l.filter p).length = l.length ↔ ∀ a ∈ l, p a := by
  induction l with
  | nil => simp
  | cons x xs ih =>
    by_cases hx : p x
    · simp [List.filter_cons, hx, ih]
    · simp only [List.filter_cons, hx, Bool.false_eq_true, ite_false,
        List.length_cons]
      have hle := List.length_filter_le p xs
      constructor
      · intro h
        exact absurd h (by omega)
      · intro h
        exact absurd (h x (by simp)) (by simp [hx])

theorem map_eq_self_of_id (l : List α) (f : α → α) (h : ∀ a ∈ l, f a = a) :
    l.map f = l := by
  induction l with
  | nil => rfl
  | cons x xs ih =>
    simp only [List.map_cons, h x (by simp)]
    rw [ih (fun a ha => h a (by simp [ha]))]

/-! ## Demo data used by witnesses and counterexamples -/

def pA : SavedPhrase := { id := "idA", text := "A", note := "", timestamp := 0 }

def pBimp : SavedPhrase := { id := "idB2", text := "B", note := "", timestamp := 0 }

def pBex : SavedPhrase :=
  { id := "idB", text := "B", note := "", timestamp := 0, lastScore := some 50 }

def pC : SavedPhrase := { id := "idC", text := "C", note := "", timestamp := 0 }

def demoLib : List SavedPhrase :=
  [{ id := "p1", text := "Hello", note := "", timestamp := 0 },
   { id := "p2", text := "World", note := "", timestamp := 0, lastScore := some 80,
     practiceCount := some 2 }]

def demoIdle : AppState :=
  { targetText := "The quick brown fox jumps over the lazy dog.",
    status := AppStatus.IDLE, result := none, errorMessage := "" }

/-! ## C5: updateScore -/

/-- C5: updateScore(id, score) is a silent no-op leaving the stored
phrase sequence unchanged when no phrase has the given id; when a phrase
with the id exists, it sets that phrase's lastScore to score, increments
its practiceCount by exactly 1 (an absent count counting as 0), leaves
all its other fields and every other phrase unchanged, and does not
reorder the stored sequence (position-by-position characterisation). -/
theorem c5_updateScore (pid : String) (score : Int)
    (phrases : List SavedPhrase) :
    ((∀ p ∈ phrases, p.id ≠ pid) → updatePhraseScore pid score phrases = phrases) ∧
    (updatePhraseScore pid score phrases).length = phrases.length ∧
    (∀ i : Nat, (updatePhraseScore pid score phrases)[i]? =
      (phrases[i]?).map (fun p =>
        if p.id = pid then
          { p with lastScore := some score,
                   practiceCount := some (p.practiceCount.getD 0 + 1) }
        else p)) := by
  refine ⟨fun h => ?_, by simp [updatePhraseScore], fun i => ?_⟩
  · exact map_eq_self_of_id _ _ (fun p hp => by simp [h p hp])
  · simp [updatePhraseScore, List.getElem?_map]

theorem c5_updateScore_witness :
    updatePhraseScore "zz" 5 demoLib = demoLib ∧
    (updatePhraseScore "p1" 80 demoLib)[0]? =
      ((demoLib[0]?).map (fun p =>
        if p.id = "p1" then
          { p with lastScore := some (80 : Int),
                   practiceCount := some (p.practiceCount.getD 0 + 1) }
        else p)) :=
  ⟨(c5_updateScore "zz" 5 demoLib).1 (by decide),
   (c5_updateScore "p1" 80 demoLib).2.2 0⟩

/-! ## C6: add -/

/-- C6: add(text, note) fails and leaves the library unchanged when the
text trims to empty; otherwise it prepends a new phrase with the freshly
generated id, practiceCount = 0 and lastScore absent, and if the fresh
id does not already occur in a duplicate-free library the ids of the
result are still duplicate-free. -/
theorem c6_add (freshId : String) (now : Int) (targetText phraseNote : String)
    (lib : List SavedPhrase) :
    (jsTrim targetText = "" →
      handleSavePhrase freshId now targetText phraseNote lib = lib) ∧
    (jsTrim targetText ≠ "" →
      handleSavePhrase freshId now targetText phraseNote lib =
        { id := freshId, text := jsTrim targetText, note := jsTrim phraseNote,
          timestamp := now, practiceCount := some 0, lastScore := none } :: lib) ∧
    (jsTrim targetText ≠ "" → freshId ∉ lib.map (fun p => p.id) →
      (lib.map (fun p => p.id)).Nodup →
      ((handleSavePhrase freshId now targetText phraseNote lib).map
        (fun p => p.id)).Nodup) := by
  refine ⟨fun h => by simp [handleSavePhrase, h], fun h => by simp [handleSavePhrase, h],
    fun h hfresh hnodup => ?_⟩
  simp only [handleSavePhrase, if_neg h, List.map_cons]
  exact List.Nodup.cons (fun hmem => hfresh hmem) hnodup

theorem c6_add_witness :
    handleSavePhrase "f" 0 "  " "n" demoLib = demoLib ∧
    handleSavePhrase "f" 0 " hi " "n" demoLib =
      { id := "f", text := "hi", note := "n", timestamp := 0,
        practiceCount := some 0, lastScore := none } :: demoLib ∧
    ((handleSavePhrase "f" 0 " hi " "n" demoLib).map (fun p => p.id)).Nodup := by
  refine ⟨(c6_add "f" 0 "  " "n" demoLib).1 (by decide), ?_, ?_⟩
  · have h := (c6_add "f" 0 " hi " "n" demoLib).2.1 (by decide)
    simpa using h
  · exact (c6_add "f" 0 " hi " "n" demoLib).2.2 (by decide) (by decide) (by decide)

/-! ## C7: analysis failure and reset -/

/-- C7: starting a recording, entering analysis and hitting an analysis
failure puts the session in ERROR with the result unset (not a RESULT),
and a subsequent reset returns the status to IDLE with the target text
unchanged.  The intermediate status on entry to handleProcessing is
ANALYZING. -/
theorem c7_analysisFailure (s : AppState) :
    (handleProcessingStart (startRecordingSuccess s)).status = AppStatus.ANALYZING ∧
    (handleProcessing (startRecordingSuccess s) AnalysisOutcome.failure).status =
      AppStatus.ERROR ∧
    (handleProcessing (startRecordingSuccess s) AnalysisOutcome.failure).result = none ∧
    (goHome (handleProcessing (startRecordingSuccess s) AnalysisOutcome.failure)).status =
      AppStatus.IDLE ∧
    (goHome (handleProcessing (startRecordingSuccess s) AnalysisOutcome.failure)).targetText =
      s.targetText :=
  ⟨rfl, rfl, rfl, rfl, rfl⟩

/-! ## C8: malformed analysis responses -/

/-- C8 counterexample: the parsed response `{}` (missing every field of
the AnalysisResult shape) is not treated as an AnalysisFailure — the
session stores it as the result and enters RESULT. -/
theorem c8_counterexample :
    specAnalysisResultShape (JsValue.jobj []) = false ∧
    (handleProcessing demoIdle (AnalysisOutcome.success (JsValue.jobj []))).status =
      AppStatus.RESULT ∧
    (handleProcessing demoIdle (AnalysisOutcome.success (JsValue.jobj []))).result =
      some (JsValue.jobj []) :=
  ⟨rfl, rfl, rfl⟩

/-- C8 amended: only a response whose text fails to parse as JSON (or a
network/transport error) is treated as an AnalysisFailure; a response
that parses is returned unvalidated, so the session stores it (whatever
its shape) and enters RESULT. -/
theorem c8_amended (s : AppState) (v : JsValue) :
    (handleProcessing s AnalysisOutcome.failure).status = AppStatus.ERROR ∧
    (handleProcessing s (AnalysisOutcome.success v)).status = AppStatus.RESULT ∧
    (handleProcessing s (AnalysisOutcome.success v)).result = some v :=
  ⟨rfl, rfl, rfl⟩

/-! ## C1 counterexample and C3 counterexample -/

/-- C1 counterexample: importing records with texts A and B into an
existing library holding B (with lastScore 50) and C keeps the
pre-existing B record, not the imported one — the JavaScript Map keeps
the first insertion position of a key but the last value set for it. -/
theorem c1_counterexample :
    handleImport [pA, pBimp] [pBex, pC] = [pA, pBex, pC] ∧
    pBex ≠ pBimp ∧ pBex.lastScore = some 50 ∧ pBimp.lastScore = none := by
  refine ⟨by decide, by decide, rfl, rfl⟩

/-- C3 counterexample: for canonical text "The cat sat." and user input
"the cat sit" the produced diff is not the claimed
[{The,true},{cat,true},{sat,false}] — the third display word is the
original "sat." (with the period), taken from the unnormalized text. -/
theorem c3_counterexample :
    (checkWriting "The cat sat." "the cat sit").diff =
      [{ word := "The", isCorrect := true }, { word := "cat", isCorrect := true },
       { word := "sat.", isCorrect := false }] ∧
    ((checkWriting "The cat sat." "the cat sit").diff ≠
      [{ word := "The", isCorrect := true }, { word := "cat", isCorrect := true },
       { word := "sat", isCorrect := false }]) := by
  constructor
  · decide
  · decide

/-! ## Split and score lemmas (for C2, C10) -/

theorem splitAux_ne_nil (l acc : List Char) : splitAux l acc ≠ [] := by
  induction l generalizing acc with
  | nil => simp [splitAux]
  | cons c rest ih =>
    simp only [splitAux]
    by_cases hc : c = ' '
    · simp [hc]
    · simpa [hc] using ih (c :: acc)

theorem splitOnSpace_ne_nil (s : String) : splitOnSpace s ≠ [] :=
  splitAux_ne_nil s.toList []

theorem splitOnSpace_length_pos (s : String) : 1 ≤ (splitOnSpace s).length :=
  List.length_pos.mpr (splitOnSpace_ne_nil s)

theorem checkWriting_diff_length (text userInput : String) :
    (checkWriting text userInput).diff.length =
      (splitOnSpace (normalizeText text)).length := by
  simp [checkWriting]

/-- C10: the writing check is total — the normalized canonical word list
is never empty (splitting always yields at least one element, so the
score's divisor is nonzero) and the produced diff has exactly one entry
per normalized canonical word. -/
theorem c10_writing_total (text userInput : String) :
    1 ≤ (splitOnSpace (normalizeText text)).length ∧
    (splitOnSpace (normalizeText text)).length ≠ 0 ∧
    (checkWriting text userInput).diff.length =
      (splitOnSpace (normalizeText text)).length := by
  have h := splitOnSpace_length_pos (normalizeText text)
  exact ⟨h, by omega, checkWriting_diff_length text userInput⟩

theorem roundPct_le_100 (c n : Nat) (hc : c ≤ n) (hn : 1 ≤ n) :
    roundPct c n ≤ 100 := by
  unfold roundPct
  have h : c * 200 + n < 101 * (2 * n) := by omega
  have := (Nat.div_lt_iff_lt_mul (by omega : 0 < 2 * n)).mpr h
  omega

theorem roundPct_self (n : Nat) (hn : 1 ≤ n) : roundPct n n = 100 := by
  unfold roundPct
  have h1 : 100 * (2 * n) ≤ n * 200 + n := by omega
  have h2 : n * 200 + n < 101 * (2 * n) := by omega
  have hle := (Nat.le_div_iff_mul_le (by omega : 0 < 2 * n)).mpr h1
  have hlt := (Nat.div_lt_iff_lt_mul (by omega : 0 < 2 * n)).mpr h2
  omega

theorem roundPct_eq_100_of_small (c n : Nat) (hc : c ≤ n) (hn : 1 ≤ n)
    (hsmall : n < 200) (h : roundPct c n = 100) : c = n := by
  unfold roundPct at h
  have h1 : 100 ≤ (c * 200 + n) / (2 * n) := h.ge
  have h2 := (Nat.le_div_iff_mul_le (by omega : 0 < 2 * n)).mp h1
  omega

theorem checkWriting_correctCount_le (text userInput : String) :
    ((checkWriting text userInput).diff.filter (fun e => e.isCorrect)).length ≤
      (splitOnSpace (normalizeText text)).length := by
  calc ((checkWriting text userInput).diff.filter (fun e => e.isCorrect)).length
      ≤ (checkWriting text userInput).diff.length := List.length_filter_le _ _
    _ = (splitOnSpace (normalizeText text)).length :=
        checkWriting_diff_length text userInput

theorem checkWriting_score_eq (text userInput : String) :
    (checkWriting text userInput).score =
      roundPct ((checkWriting text userInput).diff.filter
        (fun e => e.isCorrect)).length (splitOnSpace (normalizeText text)).length := by
  simp [checkWriting]

/-- C2 amended: the writing-check score is an integer in [0,100]; it is
100 if every diff entry is marked correct, and when the canonical text
has fewer than 200 normalized words, a score of 100 conversely forces
every diff entry to be correct.  (Being a `Nat`, the score is an integer
that is at least 0 by construction.) -/
theorem c2_score_range (text userInput : String) :
    (checkWriting text userInput).score ≤ 100 ∧
    (((checkWriting text userInput).diff.all (fun e => e.isCorrect)) = true →
      (checkWriting text userInput).score = 100) ∧
    ((splitOnSpace (normalizeText text)).length < 200 →
      (checkWriting text userInput).score = 100 →
      ((checkWriting text userInput).diff.all (fun e => e.isCorrect)) = true) := by
  have hn := splitOnSpace_length_pos (normalizeText text)
  have hc := checkWriting_correctCount_le text userInput
  have hd := checkWriting_diff_length text userInput
  have hs := checkWriting_score_eq text userInput
  refine ⟨?_, fun hall => ?_, fun hsmall h100 => ?_⟩
  · rw [hs]
    exact roundPct_le_100 _ _ hc hn
  · rw [hs]
    have : ((checkWriting text userInput).diff.filter (fun e => e.isCorrect)).length =
        (checkWriting text userInput).diff.length :=
      (filter_length_eq_length_iff _ _).mpr (by simpa [List.all_eq_true] using hall)
    rw [this, hd]
    exact roundPct_self _ hn
  · rw [hs] at h100
    have hcn := roundPct_eq_100_of_small _ _ hc hn hsmall h100
    rw [← hd] at hcn
    have := (filter_length_eq_length_iff
      (fun e => e.isCorrect) (checkWriting text userInput).diff).mp hcn
    simpa [List.all_eq_true] using this

theorem c2_score_range_witness :
    (checkWriting "a a" "a a").score = 100 ∧
    ((checkWriting "a a" "a a").diff.all (fun e => e.isCorrect)) = true :=
  ⟨(c2_score_range "a a" "a a").2.1 (by decide),
   (c2_score_range "a a" "a a").2.2 (by decide)
     ((c2_score_range "a a" "a a").2.1 (by decide))⟩

/-- A canonical text of 200 one-letter words. -/
def longText : String := String.intercalate " " (List.replicate 200 "a")

/-- A user input matching only the first 199 of those words. -/
def longUser : String := String.intercalate " " (List.replicate 199 "a")

set_option maxRecDepth 40000 in
/-- C2 counterexample: with 200 canonical words and 199 positional
matches the score is round(199/200*100) = round(99.5) = 100, although
not every positional word matches — the claimed "only if" direction
fails. -/
theorem c2_counterexample :
    (checkWriting longText longUser).score = 100 ∧
    ((checkWriting longText longUser).diff.all (fun e => e.isCorrect)) = false := by
  constructor
  · decide
  · decide

/-! ## C3: the writing-check pipeline -/

theorem checkWriting_diff_getElem (text userInput : String) (i : Nat) :
    (checkWriting text userInput).diff[i]? =
      ((splitOnSpace (normalizeText text))[i]?).map (fun w =>
        { word := jsOrWord ((splitOnSpace text)[i]?) w,
          isCorrect := (splitOnSpace (normalizeText userInput))[i]? == some w }) := by
  simp only [checkWriting]
  rw [List.getElem?_map, List.getElem?_enum]
  cases (splitOnSpace (normalizeText text))[i]? <;> rfl

theorem optionStringBeq_none (w : String) : ((none : Option String) == some w) = false :=
  rfl

/-- C3 amended: the writing check normalizes both texts, splits them
into space-delimited words, marks a user word correct exactly when it
equals the canonical normalized word at the same position (positions
beyond the shorter sequence incorrect), and scores
round(correctCount / totalCanonicalWords × 100); for canonical text
"The cat sat." and user input "the cat sit" the normalized word lists
are [the,cat,sat] and [the,cat,sit], the diff is
[{The,true},{cat,true},{"sat.",false}] — the display word being the
original, unnormalized canonical word — and the score is 67. -/
theorem c3_writing_check :
    (∀ text userInput : String, ∀ i : Nat, ∀ e : DiffEntry,
      (checkWriting text userInput).diff[i]? = some e →
      (e.isCorrect = true ↔
        (splitOnSpace (normalizeText userInput))[i]? =
          (splitOnSpace (normalizeText text))[i]?)) ∧
    (∀ text userInput : String, ∀ i : Nat, ∀ e : DiffEntry,
      (checkWriting text userInput).diff[i]? = some e →
      (splitOnSpace (normalizeText userInput)).length ≤ i →
      e.isCorrect = false) ∧
    (∀ text userInput : String, (checkWriting text userInput).score =
      roundPct (((checkWriting text userInput).diff.filter
          (fun e => e.isCorrect)).length)
        (splitOnSpace (normalizeText text)).length) ∧
    checkWriting "The cat sat." "the cat sit" =
      { score := 67,
        diff := [{ word := "The", isCorrect := true },
                 { word := "cat", isCorrect := true },
                 { word := "sat.", isCorrect := false }] } ∧
    splitOnSpace (normalizeText "The cat sat.") = ["the", "cat", "sat"] ∧
    splitOnSpace (normalizeText "the cat sit") = ["the", "cat", "sit"] := by
  refine ⟨fun text userInput i e he => ?_, fun text userInput i e he hlen => ?_,
    checkWriting_score_eq, by decide, by decide, by decide⟩
  · rw [checkWriting_diff_getElem] at he
    rcases hw : (splitOnSpace (normalizeText text))[i]? with _ | w
    · rw [hw] at he
      simp at he
    · rw [hw] at he
      simp only [Option.map_some', Option.some.injEq] at he
      rw [← he]
      simp [beq_iff_eq]
  · rw [checkWriting_diff_getElem] at he
    rcases hw : (splitOnSpace (normalizeText text))[i]? with _ | w
    · rw [hw] at he
      simp at he
    · rw [hw] at he
      simp only [Option.map_some', Option.some.injEq] at he
      have hu : (splitOnSpace (normalizeText userInput))[i]? = none :=
        List.getElem?_eq_none hlen
      rw [← he]
      simp [hu, optionStringBeq_none]

theorem c3_writing_check_witness :
    ((({ word := "b", isCorrect := false } : DiffEntry).isCorrect = true) ↔
      (splitOnSpace (normalizeText "a c"))[1]? =
        (splitOnSpace (normalizeText "a b"))[1]?) ∧
    ({ word := "b", isCorrect := false } : DiffEntry).isCorrect = false :=
  ⟨c3_writing_check.1 "a b" "a c" 1 { word := "b", isCorrect := false } (by decide),
   c3_writing_check.2.1 "a b" "" 1 { word := "b", isCorrect := false }
     (by decide) (by decide)⟩

/-! ## C4: drill ordering -/

theorem exerciseCmp_true_le (coin : SavedPhrase → SavedPhrase → Bool)
    (x y : SavedPhrase) (h : exerciseCmp coin x y = true) :
    scoreKey x ≤ scoreKey y := by
  unfold exerciseCmp at h
  split at h
  · omega
  · rename_i hne
    have := of_decide_eq_true h
    omega

theorem exerciseCmp_false_le (coin : SavedPhrase → SavedPhrase → Bool)
    (x y : SavedPhrase) (h : exerciseCmp coin x y = false) :
    scoreKey y ≤ scoreKey x := by
  unfold exerciseCmp at h
  split at h
  · omega
  · rename_i hne
    have := of_decide_eq_false h
    omega

theorem insertSorted_mem (cmp : SavedPhrase → SavedPhrase → Bool)
    (x z : SavedPhrase) (l : List SavedPhrase)
    (h : z ∈ insertSorted cmp x l) : z = x ∨ z ∈ l := by
  induction l with
  | nil =>
    simp only [insertSorted, List.mem_singleton] at h
    exact Or.inl h
  | cons y ys ih =>
    simp only [insertSorted] at h
    by_cases hc : cmp x y = true
    · rw [if_pos hc] at h
      rcases List.mem_cons.mp h with h1 | h1
      · exact Or.inl h1
      · exact Or.inr h1
    · rw [if_neg hc] at h
      rcases List.mem_cons.mp h with h1 | h1
      · exact Or.inr (by simp [h1])
      · rcases ih h1 with h2 | h2
        · exact Or.inl h2
        · exact Or.inr (by simp [h2])

theorem sortBy_mem (cmp : SavedPhrase → SavedPhrase → Bool)
    (z : SavedPhrase) (l : List SavedPhrase)
    (h : z ∈ sortBy cmp l) : z ∈ l := by
  induction l with
  | nil => simp [sortBy] at h
  | cons x xs ih =>
    simp only [sortBy] at h
    rcases insertSorted_mem _ _ _ _ h with h1 | h1
    · simp [h1]
    · simp [ih h1]

theorem insertSorted_pairwise (coin : SavedPhrase → SavedPhrase → Bool)
    (x : SavedPhrase) (l : List SavedPhrase)
    (h : l.Pairwise (fun a b => scoreKey a ≤ scoreKey b)) :
    (insertSorted (exerciseCmp coin) x l).Pairwise
      (fun a b => scoreKey a ≤ scoreKey b) := by
  induction l with
  | nil => simp [insertSorted]
  | cons y ys ih =>
    rcases List.pairwise_cons.mp h with ⟨hy, hys⟩
    simp only [insertSorted]
    by_cases hc : exerciseCmp coin x y = true
    · rw [if_pos hc]
      have hxy := exerciseCmp_true_le coin x y hc
      refine List.pairwise_cons.mpr ⟨?_, h⟩
      intro z hz
      rcases List.mem_cons.mp hz with h1 | h1
      · rw [h1]
        exact hxy
      · have := hy z h1
        omega
    · rw [if_neg hc]
      have hyx := exerciseCmp_false_le coin x y (by simpa using hc)
      refine List.pairwise_cons.mpr ⟨?_, ih hys⟩
      intro z hz
      rcases insertSorted_mem _ _ _ _ hz with h1 | h1
      · rw [h1]; exact hyx
      · exact hy z h1

theorem sortBy_pairwise (coin : SavedPhrase → SavedPhrase → Bool)
    (l : List SavedPhrase) :
    (sortBy (exerciseCmp coin) l).Pairwise
      (fun a b => scoreKey a ≤ scoreKey b) := by
  induction l with
  | nil => simp [sortBy]
  | cons x xs ih => exact insertSorted_pairwise coin x _ ih

/-- Scenario 1 data: a practised phrase with lastScore 90 ... -/
def s1Hello : SavedPhrase :=
  { id := "id1", text := "Hello world", note := "", timestamp := 0,
    lastScore := some 90, practiceCount := some 1 }

/-- ... and a never-practised phrase with no lastScore. -/
def s1Good : SavedPhrase :=
  { id := "id2", text := "Good morning", note := "", timestamp := 0 }

def scenario1Lib : List SavedPhrase := [s1Hello, s1Good]

/-- C4: for every tie-break oracle and every library whose present
scores are nonnegative (the data-model invariant), the initial
shuffledPhrases sequence never places a phrase without lastScore after a
phrase with a numeric lastScore; and on the Scenario 1 library the drill
always starts [Good morning, Hello world], whatever the oracle. -/
theorem c4_drill_order :
    (∀ (coin : SavedPhrase → SavedPhrase → Bool) (lib : List SavedPhrase)
       (st : ExerciseState),
      (∀ p ∈ lib, ∀ s : Int, p.lastScore = some s → 0 ≤ s) →
      startExerciseMode coin lib = some st →
      st.shuffledPhrases.Pairwise
        (fun a b => b.lastScore = none → a.lastScore = none)) ∧
    (∀ coin : SavedPhrase → SavedPhrase → Bool,
      (startExerciseMode coin scenario1Lib).map
          (fun st => st.shuffledPhrases.map (fun p => p.text)) =
        some ["Good morning", "Hello world"]) := by
  constructor
  · intro coin lib st hval heq
    unfold startExerciseMode at heq
    split at heq
    · exact absurd heq (by simp)
    · have hst : st.shuffledPhrases = sortBy (exerciseCmp coin) lib := by
        cases heq
        rfl
      rw [hst]
      have hpw := sortBy_pairwise coin lib
      refine hpw.imp_of_mem ?_
      intro a b ha hb hkey hbnone
      have hamem := sortBy_mem (exerciseCmp coin) a lib ha
      rcases hla : a.lastScore with _ | s
      · rfl
      · have hge := hval a hamem s hla
        have hka : scoreKey a = s := by simp [scoreKey, hla]
        have hkb : scoreKey b = -1 := by simp [scoreKey, hbnone]
        omega
  · intro coin
    have h1 : exerciseCmp coin s1Hello s1Good = false := by
      unfold exerciseCmp scoreKey s1Hello s1Good
      norm_num
    have hsort : sortBy (exerciseCmp coin) [s1Hello, s1Good] = [s1Good, s1Hello] := by
      simp only [sortBy, insertSorted, h1]
      simp
    simp only [startExerciseMode, scenario1Lib]
    rw [if_neg (by simp)]
    simp only [Option.map_some']
    show some ((sortBy (exerciseCmp coin) [s1Hello, s1Good]).map (fun p => p.text)) =
      some ["Good morning", "Hello world"]
    rw [hsort]
    rfl

theorem c4_drill_order_witness :
    (ExerciseState.mk 0 (sortBy (exerciseCmp (fun _ _ => true)) scenario1Lib)
        ExerciseStep.WRITING "" none).shuffledPhrases.Pairwise
      (fun a b => b.lastScore = none → a.lastScore = none) :=
  c4_drill_order.1 (fun _ _ => true) scenario1Lib
    (ExerciseState.mk 0 (sortBy (exerciseCmp (fun _ _ => true)) scenario1Lib)
      ExerciseStep.WRITING "" none)
    (by
      intro p hp s hs
      simp only [scenario1Lib, List.mem_cons, List.not_mem_nil, or_false] at hp
      rcases hp with h | h
      · rw [h] at hs
        simp only [s1Hello, Option.some.injEq] at hs
        omega
      · rw [h] at hs
        simp [s1Good] at hs)
    rfl

/-! ## C9: idempotence of normalizeText -/

theorem toNat_ofNat_valid (n : Nat) (h : Nat.isValidChar n) :
    (Char.ofNat n).toNat = n := by
  unfold Char.ofNat
  rw [dif_pos h]
  rfl

theorem toLowerChar_idem (c : Char) :
    toLowerChar (toLowerChar c) = toLowerChar c := by
  unfold toLowerChar
  by_cases h : 65 ≤ c.toNat ∧ c.toNat ≤ 90
  · rw [if_pos h]
    have ht : (Char.ofNat (c.toNat + 32)).toNat = c.toNat + 32 :=
      toNat_ofNat_valid _ (Or.inl (by omega))
    rw [if_neg (by omega :
      ¬(65 ≤ (Char.ofNat (c.toNat + 32)).toNat ∧
        (Char.ofNat (c.toNat + 32)).toNat ≤ 90))]
  · rw [if_neg h, if_neg h]

/-- No two adjacent whitespace characters. -/
def NotBothWs (a b : Char) : Prop := isWs a = false ∨ isWs b = false

theorem collapseWsAux_ws_true (rest : List Char) (c : Char) (h : isWs c = true) :
    collapseWsAux true (c :: rest) = collapseWsAux true rest := by
  simp [collapseWsAux, h]

theorem collapseWsAux_ws_false (rest : List Char) (c : Char) (h : isWs c = true) :
    collapseWsAux false (c :: rest) = ' ' :: collapseWsAux true rest := by
  simp [collapseWsAux, h]

theorem collapseWsAux_nws (b : Bool) (rest : List Char) (c : Char)
    (h : isWs c = false) :
    collapseWsAux b (c :: rest) = c :: collapseWsAux false rest := by
  simp [collapseWsAux, h]

theorem collapseWsAux_mem (b : Bool) (l : List Char) (c : Char)
    (h : c ∈ collapseWsAux b l) : c = ' ' ∨ c ∈ l := by
  induction l generalizing b with
  | nil => simp [collapseWsAux] at h
  | cons d rest ih =>
    by_cases hd : isWs d = true
    · cases b with
      | true =>
        rw [collapseWsAux_ws_true rest d hd] at h
        rcases ih true h with h1 | h1
        · exact Or.inl h1
        · exact Or.inr (by simp [h1])
      | false =>
        rw [collapseWsAux_ws_false rest d hd] at h
        rcases List.mem_cons.mp h with h1 | h1
        · exact Or.inl h1
        · rcases ih true h1 with h2 | h2
          · exact Or.inl h2
          · exact Or.inr (by simp [h2])
    · rw [collapseWsAux_nws b rest d (by simpa using hd)] at h
      rcases List.mem_cons.mp h with h1 | h1
      · exact Or.inr (by simp [h1])
      · rcases ih false h1 with h2 | h2
        · exact Or.inl h2
        · exact Or.inr (by simp [h2])

theorem collapseWsAux_wsSp (b : Bool) (l : List Char) :
    ∀ c ∈ collapseWsAux b l, isWs c = true → c = ' ' := by
  induction l generalizing b with
  | nil => simp [collapseWsAux]
  | cons d rest ih =>
    intro c hc hws
    by_cases hd : isWs d = true
    · cases b with
      | true =>
        rw [collapseWsAux_ws_true rest d hd] at hc
        exact ih true c hc hws
      | false =>
        rw [collapseWsAux_ws_false rest d hd] at hc
        rcases List.mem_cons.mp hc with h1 | h1
        · exact h1
        · exact ih true c h1 hws
    · rw [collapseWsAux_nws b rest d (by simpa using hd)] at hc
      rcases List.mem_cons.mp hc with h1 | h1
      · rw [h1] at hws
        exact absurd hws (by simpa using hd)
      · exact ih false c h1 hws

theorem collapseWsAux_true_head (l : List Char) :
    ∀ c, (collapseWsAux true l).head? = some c → isWs c = false := by
  induction l with
  | nil => intro c h; simp [collapseWsAux] at h
  | cons d rest ih =>
    intro c h
    by_cases hd : isWs d = true
    · rw [collapseWsAux_ws_true rest d hd] at h
      exact ih c h
    · have hdf : isWs d = false := by simpa using hd
      rw [collapseWsAux_nws true rest d hdf] at h
      simp only [List.head?_cons, Option.some.injEq] at h
      rw [← h]
      exact hdf

theorem collapseWsAux_chain (b : Bool) (l : List Char) :
    List.Chain' NotBothWs (collapseWsAux b l) := by
  induction l generalizing b with
  | nil => simp [collapseWsAux]
  | cons d rest ih =>
    by_cases hd : isWs d = true
    · cases b with
      | true =>
        rw [collapseWsAux_ws_true rest d hd]
        exact ih true
      | false =>
        rw [collapseWsAux_ws_false rest d hd]
        refine List.chain'_cons'.mpr ⟨?_, ih true⟩
        intro y hy
        exact Or.inr (collapseWsAux_true_head rest y hy)
    · have hdf : isWs d = false := by simpa using hd
      rw [collapseWsAux_nws b rest d hdf]
      refine List.chain'_cons'.mpr ⟨?_, ih false⟩
      intro y hy
      exact Or.inl hdf

theorem collapseWsAux_eq_self (l : List Char)
    (hsp : ∀ c ∈ l, isWs c = true → c = ' ')
    (hch : List.Chain' NotBothWs l) :
    collapseWsAux false l = l ∧
    ((∀ c, l.head? = some c → isWs c = false) → collapseWsAux true l = l) := by
  induction l with
  | nil => simp [collapseWsAux]
  | cons d rest ih =>
    obtain ⟨hhd, hch'⟩ := List.chain'_cons'.mp hch
    have hsp' : ∀ c ∈ rest, isWs c = true → c = ' ' :=
      fun c hc => hsp c (by simp [hc])
    obtain ⟨ihf, iht⟩ := ih hsp' hch'
    have hresthead : isWs d = true → ∀ c, rest.head? = some c → isWs c = false := by
      intro hd c hc
      rcases hhd c hc with h1 | h1
      · exact absurd hd (by simp [h1])
      · exact h1
    constructor
    · by_cases hd : isWs d = true
      · have hd' : d = ' ' := hsp d (by simp) hd
        rw [collapseWsAux_ws_false rest d hd, iht (hresthead hd), hd']
      · rw [collapseWsAux_nws false rest d (by simpa using hd), ihf]
    · intro hhead
      have hdf : isWs d = false := hhead d rfl
      rw [collapseWsAux_nws true rest d hdf, ihf]

theorem collapseWs_eq_self (l : List Char)
    (hsp : ∀ c ∈ l, isWs c = true → c = ' ')
    (hch : List.Chain' NotBothWs l) : collapseWs l = l :=
  (collapseWsAux_eq_self l hsp hch).1

theorem dropWhile_head_not_ws (l : List Char) :
    ∀ c, ((l.dropWhile isWs).head? = some c) → isWs c = false := by
  induction l with
  | nil => intro c h; simp at h
  | cons d rest ih =>
    intro c h
    rw [List.dropWhile_cons] at h
    by_cases hd : isWs d = true
    · rw [if_pos hd] at h
      exact ih c h
    · rw [if_neg hd] at h
      simp only [List.head?_cons, Option.some.injEq] at h
      rw [← h]
      simpa using hd

theorem dropWhile_eq_self_of_head (l : List Char)
    (h : ∀ c, l.head? = some c → isWs c = false) : l.dropWhile isWs = l := by
  cases l with
  | nil => rfl
  | cons d rest =>
    rw [List.dropWhile_cons, if_neg (by simp [h d rfl])]

theorem reverse_dropWhile_head (w : List Char) (c : Char)
    (h : ((w.dropWhile isWs).reverse).head? = some c) :
    (w.reverse).head? = some c := by
  induction w with
  | nil => simp at h
  | cons d rest ih =>
    rw [List.dropWhile_cons] at h
    by_cases hd : isWs d = true
    · rw [if_pos hd] at h
      have hr := ih h
      rcases hrev : rest.reverse with _ | ⟨x, xs⟩
      · rw [hrev] at hr
        simp at hr
      · rw [List.reverse_cons, hrev]
        rw [hrev] at hr
        simpa using hr
    · rw [if_neg hd] at h
      exact h

theorem trimChars_idem (l : List Char) : trimChars (trimChars l) = trimChars l := by
  unfold trimChars
  have h1 : ((((l.dropWhile isWs).reverse.dropWhile isWs).reverse).dropWhile isWs) =
      (((l.dropWhile isWs).reverse.dropWhile isWs).reverse) := by
    apply dropWhile_eq_self_of_head
    intro c hc
    have h2 := reverse_dropWhile_head (l.dropWhile isWs).reverse c hc
    rw [List.reverse_reverse] at h2
    exact dropWhile_head_not_ws l c h2
  rw [h1, List.reverse_reverse,
    dropWhile_eq_self_of_head _ (fun c hc => dropWhile_head_not_ws _ c hc)]

theorem trimChars_mem (l : List Char) (c : Char) (h : c ∈ trimChars l) : c ∈ l := by
  unfold trimChars at h
  rw [List.mem_reverse] at h
  have h1 := (List.dropWhile_sublist (l := (l.dropWhile isWs).reverse) isWs).mem h
  rw [List.mem_reverse] at h1
  exact (List.dropWhile_sublist isWs).mem h1

theorem chain_dropWhile (l : List Char) (h : List.Chain' NotBothWs l) :
    List.Chain' NotBothWs (l.dropWhile isWs) := by
  induction l with
  | nil => simp
  | cons d rest ih =>
    rw [List.dropWhile_cons]
    by_cases hd : isWs d = true
    · rw [if_pos hd]
      exact ih h.tail
    · rw [if_neg hd]
      exact h

theorem chain_reverse_notBothWs (l : List Char) (h : List.Chain' NotBothWs l) :
    List.Chain' NotBothWs l.reverse := by
  rw [List.chain'_reverse]
  exact h.imp (fun a b hab => hab.symm)

theorem trimChars_chain (l : List Char) (h : List.Chain' NotBothWs l) :
    List.Chain' NotBothWs (trimChars l) := by
  unfold trimChars
  exact chain_reverse_notBothWs _ (chain_dropWhile _ (chain_reverse_notBothWs _
    (chain_dropWhile _ h)))

theorem toList_asString (l : List Char) : (List.asString l).toList = l := rfl

/-- C9: the text normalization used by the writing check is idempotent. -/
theorem c9_normalize_idempotent (s : String) :
    normalizeText (normalizeText s) = normalizeText s := by
  unfold normalizeText
  set N := trimChars (collapseWs ((s.toList.map toLowerChar).filter
    (fun c => !(isPunct c)))) with hN
  rw [toList_asString]
  have hmemN : ∀ c ∈ N, c = ' ' ∨
      c ∈ (s.toList.map toLowerChar).filter (fun c => !(isPunct c)) := by
    intro c hc
    exact collapseWsAux_mem false _ c (trimChars_mem _ c (hN ▸ hc))
  have hlow : ∀ c ∈ N, toLowerChar c = c := by
    intro c hc
    rcases hmemN c hc with h1 | h1
    · rw [h1]
      decide
    · have h2 := List.mem_filter.mp h1
      rcases List.mem_map.mp h2.1 with ⟨a, _, ha⟩
      rw [← ha]
      exact toLowerChar_idem a
  have hpun : ∀ c ∈ N, isPunct c = false := by
    intro c hc
    rcases hmemN c hc with h1 | h1
    · rw [h1]
      decide
    · have h2 := List.mem_filter.mp h1
      simpa using h2.2
  have hsp : ∀ c ∈ N, isWs c = true → c = ' ' := by
    intro c hc
    exact collapseWsAux_wsSp false _ c (trimChars_mem _ c (hN ▸ hc))
  have hch : List.Chain' NotBothWs N := by
    rw [hN]
    exact trimChars_chain _ (collapseWsAux_chain false _)
  have hmap : N.map toLowerChar = N := map_eq_self_of_id N toLowerChar hlow
  have hfil : N.filter (fun c => !(isPunct c)) = N :=
    List.filter_eq_self.mpr (fun a ha => by simp [hpun a ha])
  have hcol : collapseWs N = N := collapseWs_eq_self N hsp hch
  have htrim : trimChars N = N := by
    rw [hN]
    exact trimChars_idem _
  rw [hmap, hfil, hcol, htrim]

/-! ## C1: the import merge -/

theorem mapSet_not_mem (m : List (String × SavedPhrase)) (k : String)
    (v : SavedPhrase) (h : ∀ e ∈ m, e.1 ≠ k) :
    mapSet m k v = m ++ [(k, v)] := by
  unfold mapSet
  rw [if_neg]
  intro hany
  rcases List.any_eq_true.mp hany with ⟨e, he, hbeq⟩
  exact h e he (by simpa using hbeq)

theorem mapSet_mem (m : List (String × SavedPhrase)) (k : String)
    (v : SavedPhrase) (h : m.any (fun e => e.1 == k) = true) :
    mapSet m k v = m.map (fun e => if e.1 == k then (e.1, v) else e) := by
  unfold mapSet
  rw [if_pos h]

theorem any_map_general (l : List α) (f : α → β) (p : β → Bool) :
    (l.map f).any p = l.any (fun a => p (f a)) := by
  induction l with
  | nil => rfl
  | cons x xs ih => simp [ih]

theorem any_congr_mem (l : List α) (p q : α → Bool)
    (h : ∀ a ∈ l, p a = q a) : l.any p = l.any q := by
  induction l with
  | nil => rfl
  | cons x xs ih =>
    simp only [List.any_cons, h x (by simp)]
    rw [ih (fun a ha => h a (by simp [ha]))]

theorem fst_after_replace (s : SavedPhrase) (a : String × SavedPhrase) :
    ((if a.1 == s.text then ((a.1, s) : String × SavedPhrase) else a).1) = a.1 := by
  by_cases h : (a.1 == s.text) = true
  · rw [if_pos h]
  · rw [if_neg h]

theorem replace_then_find (S' : List SavedPhrase) (s : SavedPhrase)
    (e : String × SavedPhrase)
    (hfindS' : S'.find? (fun p => p.text == s.text) = none) :
    (match S'.find? (fun p =>
        p.text == (if e.1 == s.text then ((e.1, s) : String × SavedPhrase) else e).1) with
     | some p => ((if e.1 == s.text then ((e.1, s) : String × SavedPhrase) else e).1, p)
     | none => (if e.1 == s.text then ((e.1, s) : String × SavedPhrase) else e)) =
    (match (s :: S').find? (fun p => p.text == e.1) with
     | some p => (e.1, p)
     | none => e) := by
  by_cases hek : e.1 = s.text
  · have hbeq : (e.1 == s.text) = true := beq_iff_eq.mpr hek
    rw [if_pos hbeq]
    show (match S'.find? (fun p => p.text == e.1) with
      | some p => (e.1, p)
      | none => (e.1, s)) = _
    rw [hek, hfindS', List.find?_cons_of_pos S' (beq_self_eq_true s.text)]
  · have hbeq : ¬((e.1 == s.text) = true) := fun h => hek (eq_of_beq h)
    rw [if_neg hbeq]
    have hna : ¬((s.text == e.1) = true) := fun h => hek (eq_of_beq h).symm
    rw [@List.find?_cons_of_neg SavedPhrase (fun p => p.text == e.1) s S' hna]

theorem foldl_mapSet_fresh (J : List SavedPhrase)
    (m0 : List (String × SavedPhrase))
    (hfresh : ∀ j ∈ J, ∀ e ∈ m0, e.1 ≠ j.text)
    (hnodup : (J.map (fun p => p.text)).Nodup) :
    J.foldl (fun m it => mapSet m it.text it) m0 =
      m0 ++ J.map (fun j => (j.text, j)) := by
  induction J generalizing m0 with
  | nil => simp
  | cons j J' ih =>
    have hnodup' := hnodup
    rw [List.map_cons] at hnodup'
    rcases List.nodup_cons.mp hnodup' with ⟨hjt, hnd'⟩
    simp only [List.foldl_cons]
    rw [mapSet_not_mem m0 j.text j (fun e he => hfresh j (by simp) e he)]
    rw [ih (m0 ++ [(j.text, j)]) ?fresh hnd']
    · simp
    case fresh =>
      intro j' hj' e he
      rcases List.mem_append.mp he with h2 | h2
      · exact hfresh j' (by simp [hj']) e h2
      · have h3 : e = (j.text, j) := by simpa using h2
        rw [h3]
        show j.text ≠ j'.text
        intro hcontra
        exact hjt (by
          rw [hcontra]
          exact List.mem_map.mpr ⟨j', hj', rfl⟩)

theorem foldl_mapSet_into (S : List SavedPhrase)
    (m0 : List (String × SavedPhrase))
    (hS : (S.map (fun p => p.text)).Nodup) :
    S.foldl (fun m it => mapSet m it.text it) m0 =
      m0.map (fun e =>
        match S.find? (fun p => p.text == e.1) with
        | some p => (e.1, p)
        | none => e) ++
      (S.filter (fun p => !(m0.any (fun e => e.1 == p.text)))).map
        (fun p => (p.text, p)) := by
  induction S generalizing m0 with
  | nil => simp
  | cons s S' ih =>
    have hS2 := hS
    rw [List.map_cons] at hS2
    rcases List.nodup_cons.mp hS2 with ⟨hst, hnd'⟩
    have hfindS' : S'.find? (fun p => p.text == s.text) = none := by
      rw [List.find?_eq_none]
      intro p hp hbeq
      have hpt : p.text = s.text := eq_of_beq hbeq
      exact hst (by
        rw [← hpt]
        exact List.mem_map.mpr ⟨p, hp, rfl⟩)
    have hsnotin : ∀ p ∈ S', (s.text == p.text) = false := by
      intro p hp
      have hne : s.text ≠ p.text := by
        intro hcontra
        exact hst (by
          rw [hcontra]
          exact List.mem_map.mpr ⟨p, hp, rfl⟩)
      exact beq_eq_false_iff_ne.mpr hne
    simp only [List.foldl_cons]
    by_cases hmem : m0.any (fun e => e.1 == s.text) = true
    · rw [mapSet_mem m0 s.text s hmem, ih _ hnd']
      have hA2 : (m0.map (fun e => if e.1 == s.text then (e.1, s) else e)).map
          (fun e => match S'.find? (fun p => p.text == e.1) with
            | some p => (e.1, p)
            | none => e) =
          m0.map (fun e => match (s :: S').find? (fun p => p.text == e.1) with
            | some p => (e.1, p)
            | none => e) := by
        rw [List.map_map]
        apply List.map_congr_left
        intro e _
        exact replace_then_find S' s e hfindS'
      have hfilters : S'.filter (fun p =>
            !((m0.map (fun e => if e.1 == s.text then (e.1, s) else e)).any
              (fun e => e.1 == p.text))) =
          S'.filter (fun p => !(m0.any (fun e => e.1 == p.text))) := by
        apply List.filter_congr
        intro p _
        rw [any_map_general]
        congr 1
        apply any_congr_mem
        intro a _
        rw [fst_after_replace]
      have hs_dropped : ((s :: S').filter
            (fun p => !(m0.any (fun e => e.1 == p.text)))) =
          S'.filter (fun p => !(m0.any (fun e => e.1 == p.text))) := by
        rw [List.filter_cons, if_neg (by simp [hmem])]
      rw [hA2, hfilters, hs_dropped]
    · have hmemf : m0.any (fun e => e.1 == s.text) = false := by
        cases hx : m0.any (fun e => e.1 == s.text) with
        | true => exact absurd hx hmem
        | false => rfl
      have hmem' : ∀ e ∈ m0, e.1 ≠ s.text := by
        intro e he hcontra
        exact List.any_eq_false.mp hmemf e he (beq_iff_eq.mpr hcontra)
      rw [mapSet_not_mem m0 s.text s hmem', ih _ hnd']
      rw [List.map_append]
      have hA : m0.map (fun e =>
          match S'.find? (fun p => p.text == e.1) with
          | some p => (e.1, p)
          | none => e) =
          m0.map (fun e =>
          match (s :: S').find? (fun p => p.text == e.1) with
          | some p => (e.1, p)
          | none => e) := by
        apply List.map_congr_left
        intro e he
        have hna : ¬((s.text == e.1) = true) :=
          fun h => hmem' e he (eq_of_beq h).symm
        rw [@List.find?_cons_of_neg SavedPhrase (fun p => p.text == e.1) s S' hna]
      have hB : ([(s.text, s)] : List (String × SavedPhrase)).map (fun e =>
          match S'.find? (fun p => p.text == e.1) with
          | some p => (e.1, p)
          | none => e) = [(s.text, s)] := by
        simp only [List.map_cons, List.map_nil]
        show (match S'.find? (fun p => p.text == s.text) with
          | some p => ((s.text : String), p)
          | none => ((s.text, s) : String × SavedPhrase)) :: [] = [(s.text, s)]
        rw [hfindS']
      have hfilters : S'.filter (fun p =>
            !((m0 ++ [(s.text, s)]).any (fun e => e.1 == p.text))) =
          S'.filter (fun p => !(m0.any (fun e => e.1 == p.text))) := by
        apply List.filter_congr
        intro p hp
        rw [List.any_append]
        have hx : (([(s.text, s)] : List (String × SavedPhrase)).any
            (fun e => e.1 == p.text)) = false := by
          simp only [List.any_cons, List.any_nil, Bool.or_false]
          exact hsnotin p hp
        rw [hx, Bool.or_false]
      have hkept : ((s :: S').filter
            (fun p => !(m0.any (fun e => e.1 == p.text)))) =
          s :: S'.filter (fun p => !(m0.any (fun e => e.1 == p.text))) := by
        rw [List.filter_cons, if_pos (by simp [hmemf])]
      rw [hA, hB, hfilters, hkept, List.map_cons, List.append_assoc,
        List.singleton_append]

theorem foldl_mapSet_invariant (L : List SavedPhrase)
    (m0 : List (String × SavedPhrase))
    (hkv : ∀ e ∈ m0, e.2.text = e.1)
    (hkeys : (m0.map (fun e => e.1)).Nodup) :
    (∀ e ∈ L.foldl (fun m it => mapSet m it.text it) m0, e.2.text = e.1) ∧
    ((L.foldl (fun m it => mapSet m it.text it) m0).map (fun e => e.1)).Nodup := by
  induction L generalizing m0 with
  | nil => exact ⟨hkv, hkeys⟩
  | cons t L' ih =>
    simp only [List.foldl_cons]
    apply ih
    · intro e he
      unfold mapSet at he
      by_cases hmem : m0.any (fun e => e.1 == t.text) = true
      · rw [if_pos hmem] at he
        rcases List.mem_map.mp he with ⟨e0, he0, heq⟩
        by_cases hk : (e0.1 == t.text) = true
        · rw [if_pos hk] at heq
          rw [← heq]
          show t.text = e0.1
          exact (eq_of_beq hk).symm
        · rw [if_neg hk] at heq
          rw [← heq]
          exact hkv e0 he0
      · rw [if_neg hmem] at he
        rcases List.mem_append.mp he with h1 | h1
        · exact hkv e h1
        · have h2 : e = (t.text, t) := by simpa using h1
          rw [h2]
    · unfold mapSet
      by_cases hmem : m0.any (fun e => e.1 == t.text) = true
      · rw [if_pos hmem]
        have hsame : (m0.map (fun e => if e.1 == t.text then (e.1, t) else e)).map
            (fun e => e.1) = m0.map (fun e => e.1) := by
          rw [List.map_map]
          apply List.map_congr_left
          intro a _
          exact fst_after_replace t a
        rw [hsame]
        exact hkeys
      · have hmemf : m0.any (fun e => e.1 == t.text) = false := by
          cases hx : m0.any (fun e => e.1 == t.text) with
          | true => exact absurd hx hmem
          | false => rfl
        rw [if_neg hmem, List.map_append]
        simp only [List.map_cons, List.map_nil]
        refine List.Nodup.append hkeys (List.nodup_singleton _) ?_
        intro a ha hb
        have ha2 : a = t.text := by simpa using hb
        rw [ha2] at ha
        rcases List.mem_map.mp ha with ⟨e0, he0, heq⟩
        exact (List.any_eq_false.mp hmemf e0 he0) (beq_iff_eq.mpr heq)

/-- C1 amended: the merged result of import contains at most one entity
per distinct text value, and (for duplicate-free text columns on both
sides) it is exactly: for each imported record, the pre-existing record
of the same text if one exists — existing wins on a conflict — else the
imported record itself, in imported order; followed by the pre-existing
records whose text was not imported, in their original order.  The
JavaScript Map keeps the first insertion position of a key but the last
value set for it, and the pre-existing records are inserted last. -/
theorem c1_import_merge (J S : List SavedPhrase) :
    ((J.map (fun p => p.text)).Nodup → (S.map (fun p => p.text)).Nodup →
      handleImport J S =
        J.map (fun j => (S.find? (fun p => p.text == j.text)).getD j) ++
        S.filter (fun p => !(J.any (fun j => j.text == p.text)))) ∧
    ((handleImport J S).map (fun p => p.text)).Nodup := by
  constructor
  · intro hJ hS
    unfold handleImport buildTextMap
    rw [List.foldl_append]
    rw [foldl_mapSet_fresh J [] (by simp) hJ]
    rw [List.nil_append]
    rw [foldl_mapSet_into S _ hS]
    rw [List.map_append]
    congr 1
    · rw [List.map_map, List.map_map]
      apply List.map_congr_left
      intro j _
      show (match S.find? (fun p : SavedPhrase => p.text == j.text) with
        | some p => ((j.text : String), p)
        | none => ((j.text, j) : String × SavedPhrase)).2 =
        (S.find? (fun p : SavedPhrase => p.text == j.text)).getD j
      cases hf : S.find? (fun p : SavedPhrase => p.text == j.text) with
      | none => rfl
      | some p => rfl
    · rw [List.map_map]
      rw [show ((fun e : String × SavedPhrase => e.2) ∘
        (fun p : SavedPhrase => (p.text, p))) = id from rfl, List.map_id]
      apply List.filter_congr
      intro p _
      show (!((J.map (fun j => (j.text, j))).any (fun e => e.1 == p.text))) =
        (!(J.any (fun j => j.text == p.text)))
      congr 1
      rw [any_map_general]
  · unfold handleImport buildTextMap
    obtain ⟨hkv, hkeys⟩ := foldl_mapSet_invariant (J ++ S) [] (by simp) (by simp)
    rw [List.map_map]
    have hmapeq : ((J ++ S).foldl (fun m it => mapSet m it.text it) []).map
        ((fun p : SavedPhrase => p.text) ∘ (fun e : String × SavedPhrase => e.2)) =
        ((J ++ S).foldl (fun m it => mapSet m it.text it) []).map (fun e => e.1) := by
      apply List.map_congr_left
      intro e he
      exact hkv e he
    rw [hmapeq]
    exact hkeys

theorem c1_import_merge_witness :
    handleImport [pA, pBimp] [pBex, pC] =
      [pA, pBimp].map (fun j =>
        (([pBex, pC].find? (fun p => p.text == j.text)).getD j)) ++
      [pBex, pC].filter (fun p =>
        !([pA, pBimp].any (fun j => j.text == p.text))) ∧
    ((handleImport [pA, pBimp] [pBex, pC]).map (fun p => p.text)).Nodup :=
  ⟨(c1_import_merge [pA, pBimp] [pBex, pC]).1 (by decide) (by decide),
   (c1_import_merge [pA, pBimp] [pBex, pC]).2⟩

end Fluentify
